import Mathlib

/-!
Verification of the task-list application's text-annotation and view-projection
core (src/src/App.tsx) against its natural-language specification.

The TypeScript source is shallowly embedded below.  JavaScript strings are
modelled as Lean String / List Char; the regular expressions appearing in the
source are fixed literal patterns, each translated into an explicit character
scanner with the same semantics (the character class \w is [A-Za-z0-9_] and \s
is ASCII whitespace; the embedding restricts itself to ASCII inputs where the
JavaScript Unicode tables would differ, which no claim depends on).
-/

/-- Character class \w of the source's regular expressions: letters, digits,
underscore (ASCII). -/
def isWordChar (c : Char) : Bool :=
  c.isAlpha || c.isDigit || c == '_'

/-- Character class \s (ASCII whitespace: space, tab, LF, VT, FF, CR). -/
def isWS (c : Char) : Bool :=
  c == ' ' || c == '\t' || c == '\n' || c == '\x0b' || c == '\x0c' || c == '\r'

/-- Embedding of JavaScript String.prototype.trim (drop whitespace at both
ends). -/
def trimChars (l : List Char) : List Char :=
  ((l.dropWhile isWS).reverse.dropWhile isWS).reverse

/-- Embedding of JavaScript String.prototype.trim on String. -/
def jsTrim (s : String) : String :=
  String.mk (trimChars s.data)

/-- Duplicate removal keeping first occurrences, the semantics of the
source's spread of a JavaScript Set over an array. -/
def dedupAux (seen : List String) : List String → List String
  | [] => []
  | x :: xs => if x ∈ seen then dedupAux seen xs else x :: dedupAux (x :: seen) xs

/-- Naive one-position-at-a-time scanner for occurrences of the mention
pattern: an at-sign preceded by whitespace (or, when the flag is true, sitting
at the current start position) and followed by a nonempty run of word
characters.  Returns the captured word-character bodies in order. -/
def mentionOccs (b : Bool) : List Char → List (List Char)
  | [] => []
  | c :: cs =>
    (if b ∧ c = '@' ∧ cs.takeWhile isWordChar ≠ [] then [cs.takeWhile isWordChar] else [])
      ++ mentionOccs (isWS c) cs

/-- Fuel-indexed embedding of the source's matchAll loop over the global regex
(?:^|\s)@(\w+): after a match the scan resumes past the captured word run
(the regex engine's lastIndex semantics).  The flag records whether the
current position is the string start or is preceded by whitespace. -/
def mentionsScan (fuel : Nat) (b : Bool) (l : List Char) : List (List Char) :=
  match fuel, l with
  | _, [] => []
  | 0, _ => []
  | Nat.succ n, c :: cs =>
    if b ∧ c = '@' ∧ cs.takeWhile isWordChar ≠ [] then
      cs.takeWhile isWordChar :: mentionsScan n false (cs.dropWhile isWordChar)
    else
      mentionsScan n (isWS c) cs

/-- Embedding of extractMentions (App.tsx lines 82-88): collect the distinct
captured bodies of the global regex (?:^|\s)@(\w+). -/
def extractMentions (text : String) : List String :=
  dedupAux [] ((mentionsScan text.data.length true text.data).map String.mk)

/-- Fuel-indexed embedding of the match loop of the global regex #(\w+): a
hash followed by a nonempty run of word characters, no boundary condition. -/
def tagsScan (fuel : Nat) (l : List Char) : List (List Char) :=
  match fuel, l with
  | _, [] => []
  | 0, _ => []
  | Nat.succ n, c :: cs =>
    if c = '#' ∧ cs.takeWhile isWordChar ≠ [] then
      cs.takeWhile isWordChar :: tagsScan n (cs.dropWhile isWordChar)
    else
      tagsScan n cs

/-- Embedding of extractTags (App.tsx lines 72-78). -/
def extractTags (text : String) : List String :=
  dedupAux [] ((tagsScan text.data.length text.data).map String.mk)

/-- Specification-side description of a mention occurrence: at index i, the
character list holds an at-sign that is at the very start (with the boundary
flag up) or preceded by a whitespace character, and the body is the nonempty
maximal word-character run that follows. -/
def mentionOccAt (b : Bool) (l : List Char) (i : Nat) (body : List Char) : Prop :=
  l[i]? = some '@'
  ∧ ((i = 0 ∧ b = true) ∨ ∃ j c, i = j + 1 ∧ l[j]? = some c ∧ isWS c = true)
  ∧ body ≠ [] ∧ body = (l.drop (i+1)).takeWhile isWordChar

/-- Embedding of the TodoStatus union type of App.tsx line 25. -/
inductive TodoStatus where
  | notStarted
  | inProgress
  | onHold
  | completed
deriving DecidableEq, Repr

/-- Embedding of the Todo interface of App.tsx lines 27-38.  The optional
previousStatus field is an Option; all other fields are as in the source. -/
structure Todo where
  id : String
  text : String
  status : TodoStatus
  dateCreated : String
  comment : String
  order : Nat
  tags : List String
  mentions : List String
  previousStatus : Option TodoStatus
  userId : String
deriving DecidableEq, Repr

/-- Embedding of JavaScript String.prototype.includes on character lists:
the first list occurs contiguously inside the second. -/
def containsSub (sub : List Char) : List Char → Bool
  | [] => sub.isEmpty
  | c :: cs => sub.isPrefixOf (c :: cs) || containsSub sub cs

/-- Embedding of text.toLowerCase().includes(query.toLowerCase()). -/
def containsCI (s q : String) : Bool :=
  containsSub (q.data.map Char.toLower) (s.data.map Char.toLower)

/-- Embedding of the filter predicate of filteredTodos (App.tsx lines
501-518): conjunction of status, tag, mention and search predicates. -/
def todoFilterPred (filterStatuses : List TodoStatus)
    (selectedTags selectedMentions : List String) (searchQuery : String)
    (todo : Todo) : Bool :=
  let statusMatch := filterStatuses.isEmpty || filterStatuses.contains todo.status
  let tagMatch := selectedTags.isEmpty || selectedTags.any (fun tag => todo.tags.contains tag)
  let mentionMatch := selectedMentions.isEmpty
    || selectedMentions.any (fun m => todo.mentions.contains m)
  let searchMatch := (jsTrim searchQuery == "")
    || containsCI todo.text searchQuery
    || todo.tags.any (fun tag => containsCI tag searchQuery)
    || todo.mentions.any (fun m => containsCI m searchQuery)
  statusMatch && tagMatch && mentionMatch && searchMatch

/-- Embedding of filteredTodos (App.tsx lines 501-518). -/
def filteredTodos (todos : List Todo) (filterStatuses : List TodoStatus)
    (selectedTags selectedMentions : List String) (searchQuery : String) : List Todo :=
  todos.filter (todoFilterPred filterStatuses selectedTags selectedMentions searchQuery)

/-- Specification-side relation: the query, lowercased, is a contiguous
substring of the lowercased reference string. -/
def LowerInfix (q s : String) : Prop :=
  (q.data.map Char.toLower) <:+: (s.data.map Char.toLower)

/-- Embedding of toggleComplete (App.tsx lines 283-297) as the resulting
update of the affected task: unchecking restores the stored previous status
(defaulting to not-started), checking records the current status and marks
the task completed.  Fields not mentioned in the update are unchanged; in
particular unchecking leaves the stored previousStatus in place. -/
def toggleComplete (t : Todo) : Todo :=
  if t.status = TodoStatus.completed then
    { t with status := t.previousStatus.getD TodoStatus.notStarted }
  else
    { t with status := TodoStatus.completed, previousStatus := some t.status }

/-- Embedding of addTodo (App.tsx lines 250-266).  The document id is
assigned by the persistence layer and modelled as empty; the creation date
and user id come from the environment and are passed as arguments.  Returns
none when the trimmed input is empty (no task is created). -/
def addTodo (inputText : String) (numTodos : Nat) (dateToday uid : String) :
    Option Todo :=
  if jsTrim inputText ≠ "" then
    some { id := ""
           text := inputText
           status := TodoStatus.notStarted
           dateCreated := dateToday
           comment := ""
           order := numTodos
           tags := extractTags inputText
           mentions := extractMentions inputText
           previousStatus := some TodoStatus.notStarted
           userId := uid }
  else none

/-- Embedding of updateStatus (App.tsx lines 268-281) as the resulting
update of the affected task. -/
def updateStatus (t : Todo) (newStatus : TodoStatus) : Todo :=
  if newStatus = TodoStatus.completed ∧ t.status ≠ TodoStatus.completed then
    { t with status := newStatus, previousStatus := some t.status }
  else
    { t with status := newStatus }

/-- Sample task used to instantiate universally quantified theorems. -/
def sampleTodo (s : TodoStatus) (p : Option TodoStatus) : Todo :=
  { id := "t1"
    text := "write the report"
    status := s
    dateCreated := "2026-01-01"
    comment := ""
    order := 0
    tags := ["work"]
    mentions := ["ana"]
    previousStatus := p
    userId := "u1" }

/-- Embedding of the final map of handleDrop: assign each task's order field
from its position (starting at n). -/
def resequence (n : Nat) : List Todo → List Todo
  | [] => []
  | t :: ts => { t with order := n } :: resequence (n + 1) ts

/-- Embedding of handleDrop (App.tsx lines 452-474) acting on the task list:
read the dragged task, splice it out at draggedIndex, splice it back in at
dropIndex, then write order := position for every task.  An out-of-range
draggedIndex is outside the modelled domain (the source only invokes the
handler with indices of rendered rows) and is mapped to the identity. -/
def handleDrop (todos : List Todo) (draggedIndex dropIndex : Nat) : List Todo :=
  match todos[draggedIndex]? with
  | none => todos
  | some dragged =>
    let removed := todos.take draggedIndex ++ todos.drop (draggedIndex + 1)
    resequence 0 (removed.take dropIndex ++ dragged :: removed.drop dropIndex)

/-- Forget the order field (used to compare task sequences up to
resequencing). -/
def stripOrder (t : Todo) : Todo :=
  { t with order := 0 }

/-- Concrete three-task sequence for the reorder example. -/
def todoA : Todo :=
  { id := "A"
    text := "first task"
    status := TodoStatus.notStarted
    dateCreated := "2026-01-01"
    comment := ""
    order := 0
    tags := []
    mentions := []
    previousStatus := none
    userId := "u1" }

/-- Second task of the reorder example. -/
def todoB : Todo :=
  { todoA with id := "B", text := "second task", order := 1 }

/-- Third task of the reorder example. -/
def todoC : Todo :=
  { todoA with id := "C", text := "third task", order := 2 }

/-- Matching of the dynamically built regular expressions of removeTag and
removeMention against a prefix of the text.  The pattern is the raw tag or
mention preceded by a marker character; within the pattern class actually
reachable here (literal characters and the dot metacharacter) a dot matches
any character except a line terminator and every other character matches
itself. -/
def matchesPat : List Char → List Char → Bool
  | [], _ => true
  | _ :: _, [] => false
  | p :: ps, c :: cs =>
    (if p = '.' then !(c == '\n' || c == '\r') else p == c) && matchesPat ps cs

/-- Fuel-indexed embedding of String.prototype.replace with a global regex of
the above pattern class and a literal replacement string: leftmost match,
replace, resume scanning after the match. -/
def replaceScan (pat repl : List Char) : Nat → List Char → List Char
  | _, [] => []
  | 0, text => text
  | Nat.succ n, c :: cs =>
    if pat ≠ [] ∧ matchesPat pat (c :: cs) = true then
      repl ++ replaceScan pat repl n (cs.drop (pat.length - 1))
    else
      c :: replaceScan pat repl n cs

/-- Global regex replacement over a whole text. -/
def jsReplaceAll (pat repl text : List Char) : List Char :=
  replaceScan pat repl text.length text

/-- Specification-side literal global substitution (no metacharacters): each
leftmost occurrence of the needle is replaced, scanning resumes after it. -/
def litReplaceScan (needle repl : List Char) : Nat → List Char → List Char
  | _, [] => []
  | 0, text => text
  | Nat.succ n, c :: cs =>
    if needle ≠ [] ∧ needle.isPrefixOf (c :: cs) = true then
      repl ++ litReplaceScan needle repl n (cs.drop (needle.length - 1))
    else
      c :: litReplaceScan needle repl n cs

/-- Literal global substitution over a whole text, following the
specification's words (replace every literal occurrence of the needle). -/
def litReplaceAll (needle repl text : List Char) : List Char :=
  litReplaceScan needle repl text.length text

/-- Embedding of the code's tag-input cleaning (App.tsx line 332): trim the
raw input, then strip a leading run of hash characters. -/
def cleanTag (raw : String) : String :=
  String.mk ((jsTrim raw).data.dropWhile (fun c => c = '#'))

/-- Modelled from the spec: the claimed cleaning order, strip any leading
hash characters the user typed, then trim whitespace (for comparison with
the source's cleanTag). -/
def specCleanTag (raw : String) : String :=
  jsTrim (String.mk (raw.data.dropWhile (fun c => c = '#')))

/-- Embedding of addTag (App.tsx lines 330-337) acting on the tag list. -/
def addTag (currentTags : List String) (raw : String) : List String :=
  if cleanTag raw ≠ "" ∧ ¬ currentTags.contains (cleanTag raw) then
    currentTags ++ [cleanTag raw]
  else currentTags

/-- Embedding of addTag as an update of the whole task: only the tags field
is written. -/
def addTagTodo (t : Todo) (raw : String) : Todo :=
  { t with tags := addTag t.tags raw }

/-- Embedding of the code's mention-input cleaning (App.tsx line 352). -/
def cleanMention (raw : String) : String :=
  String.mk ((jsTrim raw).data.dropWhile (fun c => c = '@'))

/-- Embedding of addMention (App.tsx lines 350-357). -/
def addMention (currentMentions : List String) (raw : String) : List String :=
  if cleanMention raw ≠ "" ∧ ¬ currentMentions.contains (cleanMention raw) then
    currentMentions ++ [cleanMention raw]
  else currentMentions

/-- Embedding of removeTag (App.tsx lines 339-348): filter the tag out of the
list and rewrite the text through the dynamically built global regex
'#'+tag with the bare tag as replacement. -/
def removeTag (currentTags : List String) (tag : String) (taskText : String) :
    List String × String :=
  (currentTags.filter (fun t => t ≠ tag),
   String.mk (jsReplaceAll ('#' :: tag.data) tag.data taskText.data))

/-- Embedding of removeMention (App.tsx lines 359-368). -/
def removeMention (currentMentions : List String) (mention : String)
    (taskText : String) : List String × String :=
  (currentMentions.filter (fun m => m ≠ mention),
   String.mk (jsReplaceAll ('@' :: mention.data) mention.data taskText.data))

/-- Embedding of the sortBy union (App.tsx line 48); the absent case is an
Option at use sites. -/
inductive SortCol where
  | date
  | status
deriving DecidableEq, Repr

/-- Embedding of the sortOrder union (App.tsx line 49). -/
inductive SortDir where
  | asc
  | desc
deriving DecidableEq, Repr

/-- Fixed status sequence of the comparator (App.tsx line 527). -/
def statusOrder : List TodoStatus :=
  [TodoStatus.notStarted, TodoStatus.inProgress, TodoStatus.onHold, TodoStatus.completed]

/-- Embedding of String.prototype.localeCompare restricted to the fixed
YYYY-MM-DD strings stored in dateCreated, where it coincides with codepoint
(lexicographic) comparison: negative, zero or positive. -/
def strCompare (a b : String) : Int :=
  if a < b then -1 else if a = b then 0 else 1

/-- Embedding of the comparator of sortedTodos (App.tsx lines 520-533). -/
def todoCmp (sortBy : Option SortCol) (sortOrder : SortDir) (a b : Todo) : Int :=
  match sortBy with
  | none => 0
  | some SortCol.date =>
    let comparison := strCompare a.dateCreated b.dateCreated
    if sortOrder = SortDir.asc then comparison else -comparison
  | some SortCol.status =>
    let aIndex : Int := statusOrder.indexOf a.status
    let bIndex : Int := statusOrder.indexOf b.status
    let comparison := aIndex - bIndex
    if sortOrder = SortDir.asc then comparison else -comparison

/-- Insertion step of the stable-sort model: the inserted element goes in
front of the first list element that does not compare strictly below it, so
an element never jumps in front of an earlier element comparing equal. -/
def jsInsertSorted (cmp : Todo → Todo → Int) (x : Todo) : List Todo → List Todo
  | [] => [x]
  | y :: ys => if cmp y x < 0 then y :: jsInsertSorted cmp x ys else x :: y :: ys

/-- Model of ECMAScript Array.prototype.sort with a consistent comparator:
the stable sort of the list (for these comparators, the unique permutation
that is sorted and keeps equal-comparing elements in their original
relative order). -/
def jsSortStable (cmp : Todo → Todo → Int) (l : List Todo) : List Todo :=
  l.foldr (jsInsertSorted cmp) []

/-- Embedding of sortedTodos (App.tsx lines 520-533) applied to the filtered
sequence. -/
def sortedTodos (sortBy : Option SortCol) (sortOrder : SortDir)
    (filtered : List Todo) : List Todo :=
  jsSortStable (todoCmp sortBy sortOrder) filtered

/-- Display segment produced by renderHighlightedText: plain text, a
tag-styled span or a mention-styled span. -/
inductive Seg where
  | plain (s : String)
  | tag (s : String)
  | mention (s : String)
deriving DecidableEq, Repr

/-- Character content of a segment. -/
def segData : Seg → List Char
  | Seg.plain s => s.data
  | Seg.tag s => s.data
  | Seg.mention s => s.data

/-- Fuel-indexed embedding of the split of renderHighlightedText (App.tsx
line 373) over the capturing regex (\s+|#\w+|(?:^|\s)@\w+): scanning left to
right, a separator is a maximal whitespace run, a hash followed by a nonempty
word run, or (only at the very start of the string, since at any whitespace
position the first alternative wins) an at-sign followed by a nonempty word
run; chunks between separators are kept, including empty ones. -/
def splitFuel : Nat → Bool → List Char → List Char → List (List Char)
  | _, _, acc, [] => [acc.reverse]
  | 0, _, acc, text => [acc.reverse ++ text]
  | Nat.succ n, isStart, acc, c :: cs =>
    if isWS c then
      acc.reverse :: (c :: cs.takeWhile isWS) :: splitFuel n false [] (cs.dropWhile isWS)
    else if c = '#' ∧ cs.takeWhile isWordChar ≠ [] then
      acc.reverse :: (c :: cs.takeWhile isWordChar)
        :: splitFuel n false [] (cs.dropWhile isWordChar)
    else if isStart ∧ c = '@' ∧ cs.takeWhile isWordChar ≠ [] then
      acc.reverse :: (c :: cs.takeWhile isWordChar)
        :: splitFuel n false [] (cs.dropWhile isWordChar)
    else
      splitFuel n false (c :: acc) cs

/-- The parts of the capturing split, separators included, of a text. -/
def splitParts (l : List Char) : List (List Char) :=
  splitFuel l.length true [] l

/-- Embedding of part.match over the regex (?:^|\s)@\w+: the part contains an
at-sign at its start or preceded by whitespace, followed by at least one word
character. -/
def hasMentionTok (l : List Char) : Bool :=
  !(mentionOccs true l).isEmpty

/-- Helper of the anchored full-part match: the remainder after the leading
whitespace must be an at-sign followed only by word characters, at least
one. -/
def fullMentionAux (sp rest : List Char) : Option (List Char × List Char) :=
  match rest with
  | c :: body =>
    if c = '@' ∧ body ≠ [] ∧ body.all isWordChar = true then some (sp, c :: body)
    else none
  | [] => none

/-- Embedding of part.match over the anchored regex with the two groups
leading whitespace and at-word, matching the entire part. -/
def fullMention (l : List Char) : Option (List Char × List Char) :=
  fullMentionAux (l.takeWhile isWS) (l.dropWhile isWS)

/-- Embedding of the per-part rendering of renderHighlightedText (App.tsx
lines 375-387): parts starting with a hash are tag-styled; parts containing
a recognized at-word token are mention-styled, with a leading-whitespace
prefix split off as plain when the part is exactly whitespace plus at-word;
everything else passes through plain. -/
def renderPart (part : List Char) : List Seg :=
  if part.head? = some '#' then [Seg.tag (String.mk part)]
  else if hasMentionTok part then
    match fullMention part with
    | some (sp, m) => [Seg.plain (String.mk sp), Seg.mention (String.mk m)]
    | none => [Seg.mention (String.mk part)]
  else [Seg.plain (String.mk part)]

/-- Embedding of renderHighlightedText (App.tsx lines 370-388). -/
def renderHighlightedText (text : String) : List Seg :=
  ((splitParts text.data).map renderPart).flatten

/-- A hash-word token: a hash followed by one or more word characters. -/
def isHashWordToken (s : String) : Bool :=
  match s.data with
  | '#' :: rest => !rest.isEmpty && rest.all isWordChar
  | _ => false

/-- An at-word token: an at-sign followed by one or more word characters. -/
def isAtWordToken (s : String) : Bool :=
  match s.data with
  | '@' :: rest => !rest.isEmpty && rest.all isWordChar
  | _ => false

example : extractMentions (String.mk ['p', 'i', 'n', 'g', ' ', '@', 'b', 'o', 'b']) = ["bob"] := by decide

example : extractMentions "ping @bob about this" = ["bob"] := by decide

example : extractMentions "@bob do this" = ["bob"] := by decide

example : extractMentions "email me at a@b.com" = [] := by decide

example : extractTags "buy #milk and #eggs" = ["milk", "eggs"] := by decide

/-- Whitespace and word characters are disjoint classes. -/
theorem not_isWS_of_isWordChar {c : Char} (h : isWordChar c = true) : isWS c = false := by
  cases hws : isWS c with
  | false => rfl
  | true =>
    exfalso
    have hc : c = ' ' ∨ c = '\t' ∨ c = '\n' ∨ c = '\x0b' ∨ c = '\x0c' ∨ c = '\r' := by
      simpa [isWS, or_assoc] using hws
    rcases hc with h1 | h1 | h1 | h1 | h1 | h1 <;> subst h1 <;>
      exact absurd h (by decide)

/-- Membership in first-occurrence deduplication. -/
theorem mem_dedupAux (x : String) :
    ∀ (l seen : List String), x ∈ dedupAux seen l ↔ x ∈ l ∧ x ∉ seen := by
  intro l
  induction l with
  | nil => intro seen; simp [dedupAux]
  | cons y ys ih =>
    intro seen
    by_cases hy : y ∈ seen
    · simp only [dedupAux, if_pos hy, ih]
      constructor
      · rintro ⟨hx, hs⟩; exact ⟨List.mem_cons_of_mem _ hx, hs⟩
      · rintro ⟨hx, hs⟩
        rcases List.mem_cons.mp hx with rfl | hx
        · exact absurd hy hs
        · exact ⟨hx, hs⟩
    · simp only [dedupAux, if_neg hy, List.mem_cons, ih]
      constructor
      · rintro (rfl | ⟨hx, hs⟩)
        · exact ⟨Or.inl rfl, hy⟩
        · refine ⟨Or.inr hx, fun h => hs (Or.inr h)⟩
      · rintro ⟨rfl | hx, hs⟩
        · exact Or.inl rfl
        · by_cases hxy : x = y
          · exact Or.inl hxy
          · exact Or.inr ⟨hx, fun h => h.elim hxy hs⟩

/-- Deduplication yields a list without duplicates. -/
theorem nodup_dedupAux : ∀ (l seen : List String), (dedupAux seen l).Nodup := by
  intro l
  induction l with
  | nil => intro seen; simp [dedupAux]
  | cons y ys ih =>
    intro seen
    by_cases hy : y ∈ seen
    · simpa [dedupAux, if_pos hy] using ih seen
    · rw [dedupAux, if_neg hy]
      refine List.nodup_cons.mpr ⟨fun hmem => ?_, ih (y :: seen)⟩
      exact ((mem_dedupAux y ys (y :: seen)).mp hmem).2 (List.mem_cons_self y seen)

/-- Scanning a run of word characters with the boundary flag down finds
nothing and leaves the flag down. -/
theorem mentionOccs_words (rest : List Char) :
    ∀ (body : List Char), (∀ c ∈ body, isWordChar c = true) →
      mentionOccs false (body ++ rest) = mentionOccs false rest := by
  intro body
  induction body with
  | nil => intro _; rfl
  | cons w ws ih =>
    intro h
    have hw : isWS w = false :=
      not_isWS_of_isWordChar (h w (List.mem_cons_self w ws))
    have : mentionOccs false (w :: (ws ++ rest)) = mentionOccs (isWS w) (ws ++ rest) := by
      simp [mentionOccs]
    rw [List.cons_append, this, hw, ih (fun c hc => h c (List.mem_cons_of_mem _ hc))]

/-- With enough fuel, the lastIndex-advancing scan agrees with the naive
position-by-position scan: a captured word run contains no at-sign and ends
in a non-whitespace character, so skipping it drops no occurrence. -/
theorem mentionsScan_eq_mentionOccs :
    ∀ (fuel : Nat) (l : List Char) (b : Bool), l.length ≤ fuel →
      mentionsScan fuel b l = mentionOccs b l := by
  intro fuel
  induction fuel with
  | zero =>
    intro l b h
    have : l = [] := List.length_eq_zero.mp (Nat.le_zero.mp h)
    subst this; rfl
  | succ n ih =>
    intro l b h
    cases l with
    | nil => rfl
    | cons c cs =>
      by_cases hc : b ∧ c = '@' ∧ cs.takeWhile isWordChar ≠ []
      · have hlen : (cs.dropWhile isWordChar).length ≤ n := by
          have h1 : (cs.dropWhile isWordChar).length ≤ cs.length :=
            (List.dropWhile_sublist isWordChar).length_le
          have h2 : cs.length ≤ n := by simpa using Nat.le_of_succ_le_succ h
          omega
        have hws : isWS c = false := by
          rcases hc with ⟨_, rfl, _⟩; decide
        calc mentionsScan (n+1) b (c :: cs)
            = cs.takeWhile isWordChar :: mentionsScan n false (cs.dropWhile isWordChar) := by
              simp only [mentionsScan, if_pos hc]
          _ = cs.takeWhile isWordChar :: mentionOccs false (cs.dropWhile isWordChar) := by
              rw [ih _ false hlen]
          _ = cs.takeWhile isWordChar :: mentionOccs false cs := by
              rw [← mentionOccs_words (cs.dropWhile isWordChar) (cs.takeWhile isWordChar)
                    (fun c hc => List.mem_takeWhile_imp hc),
                  List.takeWhile_append_dropWhile]
          _ = mentionOccs b (c :: cs) := by
              simp only [mentionOccs, if_pos hc, hws]
              rfl
      · have hlen : cs.length ≤ n := by simpa using Nat.le_of_succ_le_succ h
        calc mentionsScan (n+1) b (c :: cs) = mentionsScan n (isWS c) cs := by
              simp only [mentionsScan, if_neg hc]
          _ = mentionOccs (isWS c) cs := ih _ _ hlen
          _ = mentionOccs b (c :: cs) := by
              simp only [mentionOccs, if_neg hc]
              rfl

/-- Head-position case of a mention occurrence. -/
theorem mentionOccAt_zero (b : Bool) (c : Char) (cs : List Char) (body : List Char) :
    mentionOccAt b (c :: cs) 0 body ↔
      (b = true ∧ c = '@' ∧ body ≠ [] ∧ body = cs.takeWhile isWordChar) := by
  unfold mentionOccAt
  constructor
  · rintro ⟨h1, hb, hne, hbody⟩
    simp only [List.getElem?_cons_zero, Option.some.injEq] at h1
    subst h1
    refine ⟨?_, rfl, hne, by simpa using hbody⟩
    rcases hb with ⟨-, hb⟩ | ⟨j, c', hj, -⟩
    · exact hb
    · omega
  · rintro ⟨hb, rfl, hne, hbody⟩
    exact ⟨List.getElem?_cons_zero, Or.inl ⟨rfl, hb⟩, hne, by simpa using hbody⟩

/-- Index-shift case of a mention occurrence: position j+1 in c :: cs is
position j in cs, with the boundary flag becoming whether c is whitespace. -/
theorem mentionOccAt_cons_succ (b : Bool) (c : Char) (cs : List Char) (j : Nat)
    (body : List Char) :
    mentionOccAt b (c :: cs) (j+1) body ↔ mentionOccAt (isWS c) cs j body := by
  unfold mentionOccAt
  simp only [List.getElem?_cons_succ, List.drop_succ_cons]
  constructor
  · rintro ⟨hat, hb, hne, hbody⟩
    refine ⟨hat, ?_, hne, hbody⟩
    rcases hb with ⟨h0, _⟩ | ⟨k, c', hk, hget, hws⟩
    · omega
    · cases k with
      | zero =>
        simp only [List.getElem?_cons_zero, Option.some.injEq] at hget
        subst hget
        have : j = 0 := by omega
        exact Or.inl ⟨this, hws⟩
      | succ m =>
        have hj : j = m + 1 := by omega
        subst hj
        simp only [List.getElem?_cons_succ] at hget
        exact Or.inr ⟨m, c', rfl, hget, hws⟩
  · rintro ⟨hat, hb, hne, hbody⟩
    refine ⟨hat, ?_, hne, hbody⟩
    rcases hb with ⟨rfl, hws⟩ | ⟨k, c', rfl, hget, hws⟩
    · exact Or.inr ⟨0, c, rfl, List.getElem?_cons_zero, hws⟩
    · exact Or.inr ⟨k + 1, c', rfl, by simpa using hget, hws⟩

/-- Membership in the naive scan is exactly existence of an occurrence. -/
theorem mem_mentionOccs (body : List Char) :
    ∀ (l : List Char) (b : Bool),
      body ∈ mentionOccs b l ↔ ∃ i, mentionOccAt b l i body := by
  intro l
  induction l with
  | nil =>
    intro b
    constructor
    · intro h; simp [mentionOccs] at h
    · rintro ⟨i, h, -⟩; simp at h
  | cons c cs ih =>
    intro b
    have hsplit : (∃ i, mentionOccAt b (c :: cs) i body) ↔
        (mentionOccAt b (c :: cs) 0 body ∨ ∃ j, mentionOccAt b (c :: cs) (j+1) body) := by
      constructor
      · rintro ⟨i, h⟩
        cases i with
        | zero => exact Or.inl h
        | succ j => exact Or.inr ⟨j, h⟩
      · rintro (h | ⟨j, h⟩)
        · exact ⟨0, h⟩
        · exact ⟨j + 1, h⟩
    rw [hsplit, mentionOccAt_zero]
    simp only [mentionOccAt_cons_succ]
    rw [show (∃ j, mentionOccAt (isWS c) cs j body) ↔ body ∈ mentionOccs (isWS c) cs from
      (ih (isWS c)).symm]
    by_cases hc : b ∧ c = '@' ∧ cs.takeWhile isWordChar ≠ []
    · simp only [mentionOccs, if_pos hc, List.singleton_append, List.mem_cons]
      obtain ⟨hb, hceq, hne⟩ := hc
      constructor
      · rintro (rfl | h)
        · exact Or.inl ⟨hb, hceq, hne, rfl⟩
        · exact Or.inr h
      · rintro (⟨-, -, -, rfl⟩ | h)
        · exact Or.inl rfl
        · exact Or.inr h
    · simp only [mentionOccs, if_neg hc, List.nil_append]
      constructor
      · intro h; exact Or.inr h
      · rintro (⟨hb, rfl, hne, rfl⟩ | h)
        · exact absurd ⟨hb, rfl, hne⟩ hc
        · exact h

/-- Rebuilding a string from its character data is the identity. -/
theorem string_mk_data (s : String) : String.mk s.data = s := by
  cases s; rfl

/-- Membership in extractMentions is existence of a mention occurrence. -/
theorem mem_extractMentions (text s : String) :
    s ∈ extractMentions text ↔ ∃ i, mentionOccAt true text.data i s.data := by
  unfold extractMentions
  rw [mem_dedupAux]
  simp only [List.not_mem_nil, not_false_eq_true, and_true]
  rw [mentionsScan_eq_mentionOccs _ _ _ le_rfl, List.mem_map]
  constructor
  · rintro ⟨body, hmem, rfl⟩
    exact (mem_mentionOccs body text.data true).mp hmem
  · intro h
    refine ⟨s.data, (mem_mentionOccs s.data text.data true).mpr h, string_mk_data s⟩

/-- C1: extractMentions returns the set of distinct word-character token
bodies of the at-sign tokens whose at-sign is preceded by whitespace or sits
at the very start of the string; in particular the three concrete examples of
the specification hold, the email-address at-sign being excluded because it
is preceded by a letter. -/
theorem C1_extractMentions_correct :
    (∀ text s : String, s ∈ extractMentions text ↔ ∃ i, mentionOccAt true text.data i s.data)
    ∧ (∀ text : String, (extractMentions text).Nodup)
    ∧ extractMentions "ping @bob about this" = ["bob"]
    ∧ extractMentions "@bob do this" = ["bob"]
    ∧ extractMentions "email me at a@b.com" = [] :=
  ⟨mem_extractMentions, fun _ => nodup_dedupAux _ _, by decide, by decide, by decide⟩

/-- The includes embedding decides the contiguous-sublist (infix) relation. -/
theorem containsSub_iff (sub : List Char) :
    ∀ hay : List Char, containsSub sub hay = true ↔ sub <:+: hay := by
  intro hay
  induction hay with
  | nil =>
    simp only [containsSub, List.isEmpty_iff, List.infix_nil]
  | cons c cs ih =>
    simp only [containsSub, Bool.or_eq_true, List.isPrefixOf_iff_prefix, ih,
      List.infix_cons_iff]

/-- Trimming yields the empty string exactly when every character is
whitespace. -/
theorem jsTrim_eq_empty_iff (q : String) :
    (jsTrim q == "") = true ↔ q.data.all isWS = true := by
  have hmk : (jsTrim q == "") = true ↔ trimChars q.data = [] := by
    constructor
    · intro h
      have h2 : jsTrim q = "" := by exact eq_of_beq h
      have h3 : (jsTrim q).data = [] := by rw [h2]
      simpa [jsTrim] using h3
    · intro h
      have : jsTrim q = "" := by simp [jsTrim, h]
      simpa using this
  rw [hmk]
  unfold trimChars
  constructor
  · intro h
    have h1 : (q.data.dropWhile isWS).reverse.dropWhile isWS = [] := by
      simpa using congrArg List.reverse h
    have h2 : ∀ x ∈ (q.data.dropWhile isWS).reverse, isWS x = true :=
      List.dropWhile_eq_nil_iff.mp h1
    have h3 : ∀ x ∈ q.data.dropWhile isWS, isWS x = true := by
      intro x hx
      exact h2 x (List.mem_reverse.mpr hx)
    have h4 : ∀ x ∈ q.data.takeWhile isWS, isWS x = true :=
      fun x hx => List.mem_takeWhile_imp hx
    rw [List.all_eq_true]
    intro x hx
    rcases List.mem_append.mp (by
      rw [List.takeWhile_append_dropWhile (p := isWS) (l := q.data)]
      exact hx) with h5 | h5
    · exact h4 x h5
    · exact h3 x h5
  · intro h
    have h1 : q.data.dropWhile isWS = [] := by
      rw [List.dropWhile_eq_nil_iff]
      intro x hx
      exact List.all_eq_true.mp h x hx
    rw [h1]
    rfl

/-- C2: the filter keeps exactly the tasks satisfying the conjunction of the
four predicates; an empty status/tag/mention filter passes everything, the
tag and mention predicates require a shared element, and the search predicate
passes when the query is empty or whitespace-only or is case-insensitively a
substring of the text, of some tag or of some mention. -/
theorem C2_filteredTodos_correct :
    ∀ (todos : List Todo) (fs : List TodoStatus) (ts ms : List String)
      (q : String) (t : Todo),
      t ∈ filteredTodos todos fs ts ms q ↔
        t ∈ todos
        ∧ (fs = [] ∨ t.status ∈ fs)
        ∧ (ts = [] ∨ ∃ x ∈ ts, x ∈ t.tags)
        ∧ (ms = [] ∨ ∃ x ∈ ms, x ∈ t.mentions)
        ∧ (q.data.all isWS = true ∨ LowerInfix q t.text
            ∨ (∃ tag ∈ t.tags, LowerInfix q tag)
            ∨ (∃ m ∈ t.mentions, LowerInfix q m)) := by
  intro todos fs ts ms q t
  have hpred : todoFilterPred fs ts ms q t = true ↔
      ((fs = [] ∨ t.status ∈ fs)
        ∧ (ts = [] ∨ ∃ x ∈ ts, x ∈ t.tags)
        ∧ (ms = [] ∨ ∃ x ∈ ms, x ∈ t.mentions)
        ∧ (q.data.all isWS = true ∨ LowerInfix q t.text
            ∨ (∃ tag ∈ t.tags, LowerInfix q tag)
            ∨ (∃ m ∈ t.mentions, LowerInfix q m))) := by
    unfold todoFilterPred
    simp only [Bool.and_eq_true, and_assoc]
    refine and_congr ?_ (and_congr ?_ (and_congr ?_ ?_))
    · simp
    · simp
    · simp
    · simp only [Bool.or_eq_true, or_assoc, jsTrim_eq_empty_iff, containsCI,
        containsSub_iff, List.any_eq_true, LowerInfix]
  rw [filteredTodos, List.mem_filter, hpred]

/-- C3: toggling a non-completed task records the prior status into
previousStatus and sets the status to completed; toggling a completed task
restores previousStatus (defaulting to not-started); a task in progress,
toggled to complete and back, ends in progress with tags, mentions and text
unchanged throughout. -/
theorem C3_toggleComplete_correct :
    (∀ t : Todo, t.status ≠ TodoStatus.completed →
      toggleComplete t
        = { t with status := TodoStatus.completed, previousStatus := some t.status })
    ∧ (∀ t : Todo, t.status = TodoStatus.completed →
      toggleComplete t
        = { t with status := t.previousStatus.getD TodoStatus.notStarted })
    ∧ (∀ t : Todo, t.status = TodoStatus.inProgress →
      (toggleComplete (toggleComplete t)).status = TodoStatus.inProgress
      ∧ (toggleComplete (toggleComplete t)).tags = t.tags
      ∧ (toggleComplete (toggleComplete t)).mentions = t.mentions
      ∧ (toggleComplete (toggleComplete t)).text = t.text
      ∧ (toggleComplete t).tags = t.tags
      ∧ (toggleComplete t).mentions = t.mentions
      ∧ (toggleComplete t).text = t.text) := by
  refine ⟨?_, ?_, ?_⟩
  · intro t h
    rw [toggleComplete, if_neg h]
  · intro t h
    rw [toggleComplete, if_pos h]
  · intro t h
    simp [toggleComplete, h]

/-- Witness instantiating C3 at concrete tasks. -/
theorem C3_toggleComplete_witness :
    (toggleComplete (sampleTodo TodoStatus.onHold none)
      = { sampleTodo TodoStatus.onHold none with
          status := TodoStatus.completed, previousStatus := some TodoStatus.onHold })
    ∧ (toggleComplete (sampleTodo TodoStatus.completed (some TodoStatus.onHold))
      = { sampleTodo TodoStatus.completed (some TodoStatus.onHold) with
          status := (some TodoStatus.onHold).getD TodoStatus.notStarted })
    ∧ ((toggleComplete (toggleComplete (sampleTodo TodoStatus.inProgress none))).status
        = TodoStatus.inProgress
      ∧ (toggleComplete (toggleComplete (sampleTodo TodoStatus.inProgress none))).tags
        = (sampleTodo TodoStatus.inProgress none).tags
      ∧ (toggleComplete (toggleComplete (sampleTodo TodoStatus.inProgress none))).mentions
        = (sampleTodo TodoStatus.inProgress none).mentions
      ∧ (toggleComplete (toggleComplete (sampleTodo TodoStatus.inProgress none))).text
        = (sampleTodo TodoStatus.inProgress none).text
      ∧ (toggleComplete (sampleTodo TodoStatus.inProgress none)).tags
        = (sampleTodo TodoStatus.inProgress none).tags
      ∧ (toggleComplete (sampleTodo TodoStatus.inProgress none)).mentions
        = (sampleTodo TodoStatus.inProgress none).mentions
      ∧ (toggleComplete (sampleTodo TodoStatus.inProgress none)).text
        = (sampleTodo TodoStatus.inProgress none).text) :=
  ⟨C3_toggleComplete_correct.1 _ (by decide),
   C3_toggleComplete_correct.2.1 _ rfl,
   C3_toggleComplete_correct.2.2 _ rfl⟩

/-- C4 counterexample: a freshly created task does not have an absent
previousStatus — addTodo explicitly initializes previousStatus to
not-started, contradicting the claim that previousStatus is absent except
when transitioning into completed. -/
theorem C4_previousStatus_counterexample :
    (addTodo "buy milk" 0 "2026-01-01" "u1").map Todo.previousStatus
      = some (some TodoStatus.notStarted)
    ∧ (addTodo "buy milk" 0 "2026-01-01" "u1").map Todo.previousStatus ≠ some none := by
  constructor
  · decide
  · decide

/-- C4 amended: previousStatus is initialized to some not-started at task
creation (it is never absent on a task created by addTodo); updateStatus
rewrites previousStatus (to the prior status) exactly when transitioning into
completed from a non-completed status, and direct transitions to any
non-completed status leave previousStatus untouched. -/
theorem C4_previousStatus_amended :
    (∀ (txt : String) (n : Nat) (d uid : String) (t : Todo),
        addTodo txt n d uid = some t →
          t.previousStatus = some TodoStatus.notStarted
          ∧ t.status = TodoStatus.notStarted)
    ∧ (∀ (t : Todo) (s : TodoStatus), s ≠ TodoStatus.completed →
        updateStatus t s = { t with status := s })
    ∧ (∀ t : Todo, t.status ≠ TodoStatus.completed →
        updateStatus t TodoStatus.completed
          = { t with status := TodoStatus.completed, previousStatus := some t.status })
    ∧ (∀ t : Todo, t.status = TodoStatus.completed →
        updateStatus t TodoStatus.completed = { t with status := TodoStatus.completed }) := by
  refine ⟨?_, ?_, ?_, ?_⟩
  · intro txt n d uid t h
    by_cases hc : jsTrim txt ≠ ""
    · rw [addTodo, if_pos hc] at h
      cases h
      exact ⟨rfl, rfl⟩
    · rw [addTodo, if_neg hc] at h
      cases h
  · intro t s hs
    rw [updateStatus, if_neg (fun hx => hs hx.1)]
  · intro t h
    rw [updateStatus, if_pos ⟨rfl, h⟩]
  · intro t h
    rw [updateStatus, if_neg (fun hx => hx.2 h)]

/-- Witness instantiating the amended C4 at concrete inputs. -/
theorem C4_previousStatus_witness :
    (({ id := ""
        text := "buy milk"
        status := TodoStatus.notStarted
        dateCreated := "2026-01-01"
        comment := ""
        order := 0
        tags := []
        mentions := []
        previousStatus := some TodoStatus.notStarted
        userId := "u1" } : Todo).previousStatus = some TodoStatus.notStarted
      ∧ ({ id := ""
           text := "buy milk"
           status := TodoStatus.notStarted
           dateCreated := "2026-01-01"
           comment := ""
           order := 0
           tags := []
           mentions := []
           previousStatus := some TodoStatus.notStarted
           userId := "u1" } : Todo).status = TodoStatus.notStarted)
    ∧ updateStatus (sampleTodo TodoStatus.notStarted none) TodoStatus.inProgress
      = { sampleTodo TodoStatus.notStarted none with status := TodoStatus.inProgress }
    ∧ updateStatus (sampleTodo TodoStatus.inProgress none) TodoStatus.completed
      = { sampleTodo TodoStatus.inProgress none with
          status := TodoStatus.completed, previousStatus := some TodoStatus.inProgress }
    ∧ updateStatus (sampleTodo TodoStatus.completed (some TodoStatus.onHold))
        TodoStatus.completed
      = { sampleTodo TodoStatus.completed (some TodoStatus.onHold) with
          status := TodoStatus.completed } :=
  ⟨C4_previousStatus_amended.1 "buy milk" 0 "2026-01-01" "u1" _ (by decide),
   C4_previousStatus_amended.2.1 _ _ (by decide),
   C4_previousStatus_amended.2.2.1 _ (by decide),
   C4_previousStatus_amended.2.2.2 _ rfl⟩

/-- Resequencing preserves length. -/
theorem resequence_length : ∀ (l : List Todo) (n : Nat), (resequence n l).length = l.length := by
  intro l
  induction l with
  | nil => intro n; rfl
  | cons t ts ih => intro n; simp [resequence, ih]

/-- Resequencing assigns consecutive order values starting at n. -/
theorem resequence_get :
    ∀ (l : List Todo) (n k : Nat) (hk : k < (resequence n l).length),
      ((resequence n l).get ⟨k, hk⟩).order = n + k := by
  intro l
  induction l with
  | nil => intro n k hk; simp [resequence] at hk
  | cons t ts ih =>
    intro n k hk
    cases k with
    | zero => simp [resequence]
    | succ m =>
      have hm : m < (resequence (n + 1) ts).length := by
        simpa [resequence] using hk
      have := ih (n + 1) m hm
      simp only [resequence, List.get_cons_succ]
      rw [this]
      omega

/-- Resequencing only changes order fields. -/
theorem resequence_map_stripOrder :
    ∀ (l : List Todo) (n : Nat), (resequence n l).map stripOrder = l.map stripOrder := by
  intro l
  induction l with
  | nil => intro n; rfl
  | cons t ts ih => intro n; simp [resequence, ih, stripOrder]

/-- Splicing an element in at an index within bounds is List.insertIdx. -/
theorem insertIdx_eq_take_cons_drop {α : Type _} (x : α) :
    ∀ (j : Nat) (l : List α), j ≤ l.length →
      l.insertIdx j x = l.take j ++ x :: l.drop j := by
  intro j
  induction j with
  | zero => intro l _; simp
  | succ n ih =>
    intro l h
    cases l with
    | nil => simp at h
    | cons a as =>
      rw [List.insertIdx_succ_cons, ih as (by simpa using Nat.le_of_succ_le_succ h)]
      simp

/-- C5: for valid indices, handleDrop removes the task at the dragged index,
reinserts it at the drop index in the full sequence, and assigns every order
field densely from 0 to N-1; moving index 0 to index 2 in [A,B,C] yields
order assignments B:0, C:1, A:2. -/
theorem C5_handleDrop_correct :
    (∀ (todos : List Todo) (i j : Nat) (hi : i < todos.length), j < todos.length →
      handleDrop todos i j
          = resequence 0 ((todos.eraseIdx i).insertIdx j (todos.get ⟨i, hi⟩))
        ∧ (handleDrop todos i j).length = todos.length
        ∧ (∀ (k : Nat) (hk : k < (handleDrop todos i j).length),
            ((handleDrop todos i j).get ⟨k, hk⟩).order = k)
        ∧ (handleDrop todos i j).map stripOrder
          = ((todos.eraseIdx i).insertIdx j (todos.get ⟨i, hi⟩)).map stripOrder)
    ∧ handleDrop [todoA, todoB, todoC] 0 2
      = [{ todoB with order := 0 }, { todoC with order := 1 }, { todoA with order := 2 }] := by
  constructor
  · intro todos i j hi hj
    have hget : todos[i]? = some (todos.get ⟨i, hi⟩) := by
      rw [List.getElem?_eq_getElem hi, List.get_eq_getElem]
    have hlenrem : (todos.eraseIdx i).length = todos.length - 1 := by
      rw [List.length_eraseIdx]
      simp [hi]
    have hj' : j ≤ (todos.eraseIdx i).length := by omega
    have hmain : handleDrop todos i j
        = resequence 0 ((todos.eraseIdx i).insertIdx j (todos.get ⟨i, hi⟩)) := by
      rw [handleDrop, hget]
      rw [insertIdx_eq_take_cons_drop _ j _ hj', List.eraseIdx_eq_take_drop_succ]
    refine ⟨hmain, ?_, ?_, ?_⟩
    · rw [hmain, resequence_length, List.length_insertIdx j _ hj', hlenrem]
      omega
    · intro k hk
      rw [List.get_of_eq hmain ⟨k, hk⟩, resequence_get]
      simp
    · rw [hmain, resequence_map_stripOrder]
  · decide

/-- Witness instantiating C5 on the three-task example. -/
theorem C5_handleDrop_witness :
    (handleDrop [todoA, todoB, todoC] 0 2).length = 3
    ∧ (∀ (k : Nat) (hk : k < (handleDrop [todoA, todoB, todoC] 0 2).length),
        ((handleDrop [todoA, todoB, todoC] 0 2).get ⟨k, hk⟩).order = k)
    ∧ (handleDrop [todoA, todoB, todoC] 0 2).map stripOrder
      = (([todoA, todoB, todoC].eraseIdx 0).insertIdx 2
          ([todoA, todoB, todoC].get ⟨0, by decide⟩)).map stripOrder := by
  have h := C5_handleDrop_correct.1 [todoA, todoB, todoC] 0 2 (by decide) (by decide)
  exact ⟨h.2.1, h.2.2.1, h.2.2.2⟩

example : removeTag ["milk", "eggs"] "milk" "buy #milk and #eggs"
    = (["eggs"], "buy milk and #eggs") := by decide

/-- On dot-free patterns regex matching is literal prefix matching. -/
theorem matchesPat_eq_isPrefixOf :
    ∀ (pat l : List Char), (∀ c ∈ pat, c ≠ '.') →
      matchesPat pat l = pat.isPrefixOf l := by
  intro pat
  induction pat with
  | nil => intro l _; cases l <;> rfl
  | cons p ps ih =>
    intro l h
    cases l with
    | nil => rfl
    | cons c cs =>
      have hp : p ≠ '.' := h p (List.mem_cons_self p ps)
      rw [matchesPat, if_neg hp, List.isPrefixOf,
        ih cs (fun x hx => h x (List.mem_cons_of_mem _ hx))]

/-- On dot-free patterns the regex replacement is the literal substitution. -/
theorem replaceScan_eq_litReplaceScan :
    ∀ (n : Nat) (pat repl text : List Char), (∀ c ∈ pat, c ≠ '.') →
      replaceScan pat repl n text = litReplaceScan pat repl n text := by
  intro n
  induction n with
  | zero => intro pat repl text _; cases text <;> rfl
  | succ m ih =>
    intro pat repl text h
    cases text with
    | nil => rfl
    | cons c cs =>
      rw [replaceScan, litReplaceScan, matchesPat_eq_isPrefixOf _ _ h, ih _ _ _ h, ih _ _ _ h]

/-- Word characters are not the dot metacharacter. -/
theorem ne_dot_of_isWordChar {c : Char} (h : isWordChar c = true) : c ≠ '.' := by
  intro hc
  subst hc
  exact absurd h (by decide)

/-- C6 counterexample: with the tag "a.b" (reachable through addTag), the
text rewrite of removeTag is not the literal global substitution of the
string "#a.b" — the dot acts as a regex wildcard and rewrites "#axb". -/
theorem C6_removeTag_counterexample :
    (removeTag ["a.b"] "a.b" "see #axb here").2 = "see a.b here"
    ∧ String.mk (litReplaceAll ('#' :: ("a.b").data) ("a.b").data ("see #axb here").data)
      = "see #axb here"
    ∧ ("see a.b here" : String) ≠ "see #axb here" := by
  refine ⟨by decide, by decide, by decide⟩

/-- C6 amended: removeTag always removes the exact tag from the set; for
every tag consisting solely of word characters (the only tags free of regex
metacharacters, and the only ones extractTags produces) the text rewrite
equals the literal global substitution of '#'+tag by the bare tag; the
milk/eggs example behaves as specified. -/
theorem C6_removeTag_amended :
    (∀ (tags : List String) (tag text : String),
      (removeTag tags tag text).1 = tags.filter (fun t => t ≠ tag))
    ∧ (∀ (tags : List String) (tag text : String), tag.data.all isWordChar = true →
      (removeTag tags tag text).2
        = String.mk (litReplaceAll ('#' :: tag.data) tag.data text.data))
    ∧ removeTag ["milk", "eggs"] "milk" "buy #milk and #eggs"
      = (["eggs"], "buy milk and #eggs") := by
  refine ⟨fun _ _ _ => rfl, ?_, by decide⟩
  intro tags tag text h
  have hpat : ∀ c ∈ '#' :: tag.data, c ≠ '.' := by
    intro c hc
    rcases List.mem_cons.mp hc with rfl | hc
    · decide
    · exact ne_dot_of_isWordChar (List.all_eq_true.mp h c hc)
  show String.mk (jsReplaceAll ('#' :: tag.data) tag.data text.data) = _
  rw [jsReplaceAll, litReplaceAll, replaceScan_eq_litReplaceScan _ _ _ _ hpat]

/-- Witness instantiating the amended C6 on the milk/eggs example. -/
theorem C6_removeTag_witness :
    (removeTag ["milk", "eggs"] "milk" "buy #milk and #eggs").1
      = ["milk", "eggs"].filter (fun t => t ≠ "milk")
    ∧ (removeTag ["milk", "eggs"] "milk" "buy #milk and #eggs").2
      = String.mk (litReplaceAll ('#' :: ("milk").data) ("milk").data
          ("buy #milk and #eggs").data) :=
  ⟨C6_removeTag_amended.1 ["milk", "eggs"] "milk" "buy #milk and #eggs",
   C6_removeTag_amended.2.1 ["milk", "eggs"] "milk" "buy #milk and #eggs" (by decide)⟩

/-- C7 counterexample: the code trims first and strips hashes afterwards, so
the raw input "# x" yields the stored tag " x", while cleaning in the
claimed order (strip leading hashes, then trim) would yield "x". -/
theorem C7_addTag_counterexample :
    addTag [] "# x" = [" x"]
    ∧ cleanTag "# x" = " x"
    ∧ specCleanTag "# x" = "x"
    ∧ addTag [] "# x" ≠ [specCleanTag "# x"] := by
  refine ⟨by decide, by decide, by decide, by decide⟩

/-- C7 amended: addTag cleans the raw input by first trimming whitespace and
then stripping any leading hash characters (so whitespace exposed by the
stripping survives, as in "# x" becoming " x"); the result is unchanged when
the cleaned value is empty or already present, otherwise the cleaned value
is appended at the end; the task's text and mentions are never modified. -/
theorem C7_addTag_amended :
    (∀ (tags : List String) (raw : String), cleanTag raw = "" → addTag tags raw = tags)
    ∧ (∀ (tags : List String) (raw : String), cleanTag raw ∈ tags → addTag tags raw = tags)
    ∧ (∀ (tags : List String) (raw : String),
        cleanTag raw ≠ "" → cleanTag raw ∉ tags →
          addTag tags raw = tags ++ [cleanTag raw])
    ∧ (∀ (t : Todo) (raw : String),
        (addTagTodo t raw).text = t.text ∧ (addTagTodo t raw).mentions = t.mentions
        ∧ (addTagTodo t raw).status = t.status) := by
  refine ⟨?_, ?_, ?_, ?_⟩
  · intro tags raw h
    rw [addTag, if_neg (fun hx => hx.1 h)]
  · intro tags raw h
    rw [addTag, if_neg (fun hx => hx.2 (by simpa using h))]
  · intro tags raw h1 h2
    rw [addTag, if_pos ⟨h1, by simpa using h2⟩]
  · intro t raw
    exact ⟨rfl, rfl, rfl⟩

/-- Witness instantiating the amended C7 at concrete inputs. -/
theorem C7_addTag_witness :
    addTag ["work"] "   " = ["work"]
    ∧ addTag ["work"] "#work" = ["work"]
    ∧ addTag ["work"] "#home " = ["work"] ++ [cleanTag "#home "]
    ∧ ((addTagTodo (sampleTodo TodoStatus.notStarted none) "#home").text
        = (sampleTodo TodoStatus.notStarted none).text
      ∧ (addTagTodo (sampleTodo TodoStatus.notStarted none) "#home").mentions
        = (sampleTodo TodoStatus.notStarted none).mentions
      ∧ (addTagTodo (sampleTodo TodoStatus.notStarted none) "#home").status
        = (sampleTodo TodoStatus.notStarted none).status) :=
  ⟨C7_addTag_amended.1 ["work"] "   " (by decide),
   C7_addTag_amended.2.1 ["work"] "#work" (by decide),
   C7_addTag_amended.2.2.1 ["work"] "#home " (by decide) (by decide),
   C7_addTag_amended.2.2.2 (sampleTodo TodoStatus.notStarted none) "#home"⟩

/-- C10: removeTag and removeMention build a regular expression from the raw
tag or mention; the value "a.b" is accepted unchanged by addTag and
addMention, and on it the text rewrite both differs from the literal
substitution and rewrites unintended text (the dot matches any character),
so the rewrite is not a total literal substitution over the values reachable
through the public interface. -/
theorem C10_dynamicRegex_not_literal :
    addTag [] "a.b" = ["a.b"]
    ∧ (removeTag ["a.b"] "a.b" "fix #aXb soon").2 = "fix a.b soon"
    ∧ (removeTag ["a.b"] "a.b" "fix #aXb soon").2
      ≠ String.mk (litReplaceAll ('#' :: ("a.b").data) ("a.b").data ("fix #aXb soon").data)
    ∧ addMention [] "a.b" = ["a.b"]
    ∧ (removeMention ["a.b"] "a.b" "ping @aXb now").2 = "ping a.b now"
    ∧ (removeMention ["a.b"] "a.b" "ping @aXb now").2
      ≠ String.mk (litReplaceAll ('@' :: ("a.b").data) ("a.b").data ("ping @aXb now").data) := by
  refine ⟨by decide, by decide, by decide, by decide, by decide, by decide⟩

/-- Inserting is a permutation of consing. -/
theorem jsInsertSorted_perm (cmp : Todo → Todo → Int) (x : Todo) :
    ∀ l : List Todo, (jsInsertSorted cmp x l).Perm (x :: l) := by
  intro l
  induction l with
  | nil => exact List.Perm.refl _
  | cons y ys ih =>
    by_cases h : cmp y x < 0
    · rw [jsInsertSorted, if_pos h]
      exact (ih.cons y).trans (List.Perm.swap x y ys)
    · rw [jsInsertSorted, if_neg h]

/-- The stable-sort model permutes its input. -/
theorem jsSortStable_perm (cmp : Todo → Todo → Int) :
    ∀ l : List Todo, (jsSortStable cmp l).Perm l := by
  intro l
  induction l with
  | nil => exact List.Perm.refl _
  | cons a rest ih =>
    exact (jsInsertSorted_perm cmp a (jsSortStable cmp rest)).trans (ih.cons a)

/-- Membership after insertion. -/
theorem mem_jsInsertSorted (cmp : Todo → Todo → Int) (x z : Todo) (l : List Todo) :
    z ∈ jsInsertSorted cmp x l ↔ z = x ∨ z ∈ l := by
  rw [(jsInsertSorted_perm cmp x l).mem_iff, List.mem_cons]

/-- Insertion preserves sortedness for any ordering K compatible with the
comparator. -/
theorem pairwise_jsInsertSorted (cmp : Todo → Todo → Int) (K : Todo → Todo → Prop)
    (htrans : ∀ a b c, K a b → K b c → K a c)
    (h1 : ∀ a b, cmp a b < 0 → K a b)
    (h2 : ∀ a b, ¬ cmp a b < 0 → K b a) (x : Todo) :
    ∀ l : List Todo, l.Pairwise K → (jsInsertSorted cmp x l).Pairwise K := by
  intro l
  induction l with
  | nil => intro _; simp [jsInsertSorted]
  | cons y ys ih =>
    intro hp
    rcases List.pairwise_cons.mp hp with ⟨hy, hys⟩
    by_cases h : cmp y x < 0
    · rw [jsInsertSorted, if_pos h]
      refine List.pairwise_cons.mpr ⟨?_, ih hys⟩
      intro z hz
      rcases (mem_jsInsertSorted cmp x z ys).mp hz with rfl | hz
      · exact h1 y z h
      · exact hy z hz
    · rw [jsInsertSorted, if_neg h]
      refine List.pairwise_cons.mpr ⟨?_, hp⟩
      intro z hz
      rcases List.mem_cons.mp hz with rfl | hz
      · exact h2 _ _ h
      · exact htrans x y z (h2 y x h) (hy z hz)

/-- The stable-sort model sorts by any ordering K compatible with the
comparator. -/
theorem pairwise_jsSortStable (cmp : Todo → Todo → Int) (K : Todo → Todo → Prop)
    (htrans : ∀ a b c, K a b → K b c → K a c)
    (h1 : ∀ a b, cmp a b < 0 → K a b)
    (h2 : ∀ a b, ¬ cmp a b < 0 → K b a) :
    ∀ l : List Todo, (jsSortStable cmp l).Pairwise K := by
  intro l
  induction l with
  | nil => exact List.Pairwise.nil
  | cons a rest ih =>
    exact pairwise_jsInsertSorted cmp K htrans h1 h2 a _ ih

/-- Inserting an element that satisfies p, when no p-element compares
strictly below it, puts it in front of all p-elements. -/
theorem filter_jsInsertSorted_pos (cmp : Todo → Todo → Int) (p : Todo → Bool)
    (x : Todo) (hpx : p x = true) (h : ∀ y, p y = true → ¬ cmp y x < 0) :
    ∀ l : List Todo, (jsInsertSorted cmp x l).filter p = x :: l.filter p := by
  intro l
  induction l with
  | nil => simp [jsInsertSorted, hpx]
  | cons y ys ih =>
    by_cases hlt : cmp y x < 0
    · have hpy : p y = false := by
        cases hpy : p y with
        | false => rfl
        | true => exact absurd hlt (h y hpy)
      rw [jsInsertSorted, if_pos hlt, List.filter_cons, if_neg (by simp [hpy]),
        ih, List.filter_cons, if_neg (by simp [hpy])]
    · rw [jsInsertSorted, if_neg hlt, List.filter_cons, if_pos (by simp [hpx])]

/-- Inserting an element that fails p does not change the p-filtered list. -/
theorem filter_jsInsertSorted_neg (cmp : Todo → Todo → Int) (p : Todo → Bool)
    (x : Todo) (hpx : p x = false) :
    ∀ l : List Todo, (jsInsertSorted cmp x l).filter p = l.filter p := by
  intro l
  induction l with
  | nil => simp [jsInsertSorted, hpx]
  | cons y ys ih =>
    by_cases hlt : cmp y x < 0
    · rw [jsInsertSorted, if_pos hlt, List.filter_cons, List.filter_cons]
      cases hpy : p y with
      | false => simpa [hpy] using ih
      | true => simpa [hpy] using ih
    · rw [jsInsertSorted, if_neg hlt, List.filter_cons, if_neg (by simp [hpx])]

/-- Stability of the sort model: the elements comparing equal to any fixed
task appear in the output in their original relative order (as equal lists
once filtered). -/
theorem filter_jsSortStable (cmp : Todo → Todo → Int) (t0 : Todo)
    (hcmp : ∀ a y : Todo, cmp a t0 = 0 → cmp y t0 = 0 → ¬ cmp y a < 0) :
    ∀ l : List Todo,
      (jsSortStable cmp l).filter (fun t => cmp t t0 == 0)
        = l.filter (fun t => cmp t t0 == 0) := by
  intro l
  induction l with
  | nil => rfl
  | cons a rest ih =>
    show (jsInsertSorted cmp a (jsSortStable cmp rest)).filter _ = _
    by_cases hpa : cmp a t0 = 0
    · rw [filter_jsInsertSorted_pos cmp _ a (by simpa using hpa)
        (fun y hy => hcmp a y hpa (by simpa using hy)), ih, List.filter_cons,
        if_pos (by simpa using hpa)]
    · rw [filter_jsInsertSorted_neg cmp _ a (by simpa using hpa), ih,
        List.filter_cons, if_neg (by simpa using hpa)]

/-- Trichotomy of the string comparator. -/
theorem strCompare_cases (x y : String) :
    (strCompare x y = -1 ∧ x < y) ∨ (strCompare x y = 0 ∧ x = y)
    ∨ (strCompare x y = 1 ∧ ¬ x < y ∧ x ≠ y) := by
  unfold strCompare
  by_cases h1 : x < y
  · exact Or.inl ⟨if_pos h1, h1⟩
  · by_cases h2 : x = y
    · refine Or.inr (Or.inl ⟨?_, h2⟩)
      rw [if_neg h1, if_pos h2]
    · refine Or.inr (Or.inr ⟨?_, h1, h2⟩)
      rw [if_neg h1, if_neg h2]

/-- The comparator never treats distinct-comparing equal tasks as strictly
below one another: elements comparing equal to a fixed task compare equal to
each other. -/
theorem todoCmp_stable_hyp (sb : Option SortCol) (ord : SortDir) (t0 a y : Todo) :
    todoCmp sb ord a t0 = 0 → todoCmp sb ord y t0 = 0 → ¬ todoCmp sb ord y a < 0 := by
  intro ha hy
  cases sb with
  | none => simp [todoCmp]
  | some col =>
    cases col with
    | date =>
      have ha0 : strCompare a.dateCreated t0.dateCreated = 0 := by
        cases ord <;> simp [todoCmp] at ha <;> omega
      have hy0 : strCompare y.dateCreated t0.dateCreated = 0 := by
        cases ord <;> simp [todoCmp] at hy <;> omega
      have hae : a.dateCreated = t0.dateCreated := by
        rcases strCompare_cases a.dateCreated t0.dateCreated with ⟨h, -⟩ | ⟨-, h⟩ | ⟨h, -, -⟩
        · rw [h] at ha0; omega
        · exact h
        · rw [h] at ha0; omega
      have hye : y.dateCreated = t0.dateCreated := by
        rcases strCompare_cases y.dateCreated t0.dateCreated with ⟨h, -⟩ | ⟨-, h⟩ | ⟨h, -, -⟩
        · rw [h] at hy0; omega
        · exact h
        · rw [h] at hy0; omega
      have hya : strCompare y.dateCreated a.dateCreated = 0 := by
        rw [hye, hae]
        simp [strCompare]
      cases ord <;> simp [todoCmp, hya]
    | status =>
      cases ord <;> simp only [todoCmp] at ha hy ⊢ <;> omega

/-- C8: sorting by status orders by rank in the fixed status sequence,
sorting by date orders dateCreated lexicographically, descending inverts the
comparison, the sort is stable (equal-comparing tasks keep their filtered
order), and with no sort key the filtered sequence is returned unchanged. -/
theorem C8_sortedTodos_correct :
    (∀ (ord : SortDir) (l : List Todo), sortedTodos none ord l = l)
    ∧ (∀ (sb : Option SortCol) (ord : SortDir) (l : List Todo),
        (sortedTodos sb ord l).Perm l)
    ∧ (∀ l : List Todo, (sortedTodos (some SortCol.status) SortDir.asc l).Pairwise
        (fun a b => statusOrder.indexOf a.status ≤ statusOrder.indexOf b.status))
    ∧ (∀ l : List Todo, (sortedTodos (some SortCol.status) SortDir.desc l).Pairwise
        (fun a b => statusOrder.indexOf b.status ≤ statusOrder.indexOf a.status))
    ∧ (∀ l : List Todo, (sortedTodos (some SortCol.date) SortDir.asc l).Pairwise
        (fun a b => a.dateCreated ≤ b.dateCreated))
    ∧ (∀ l : List Todo, (sortedTodos (some SortCol.date) SortDir.desc l).Pairwise
        (fun a b => b.dateCreated ≤ a.dateCreated))
    ∧ (∀ (a b : Todo) (c : SortCol),
        todoCmp (some c) SortDir.desc a b = - todoCmp (some c) SortDir.asc a b)
    ∧ (∀ (sb : Option SortCol) (ord : SortDir) (t0 : Todo) (l : List Todo),
        (sortedTodos sb ord l).filter (fun t => todoCmp sb ord t t0 == 0)
          = l.filter (fun t => todoCmp sb ord t t0 == 0))
    ∧ sortedTodos (some SortCol.status) SortDir.asc
        [sampleTodo TodoStatus.completed none, sampleTodo TodoStatus.notStarted none]
      = [sampleTodo TodoStatus.notStarted none, sampleTodo TodoStatus.completed none] := by
  refine ⟨?_, ?_, ?_, ?_, ?_, ?_, ?_, ?_, by decide⟩
  · intro ord l
    induction l with
    | nil => rfl
    | cons a rest ih =>
      show jsInsertSorted _ a (jsSortStable _ rest) = a :: rest
      rw [show jsSortStable (todoCmp none ord) rest = rest from ih]
      cases rest with
      | nil => rfl
      | cons y ys => rw [jsInsertSorted, if_neg (by simp [todoCmp])]
  · intro sb ord l
    exact jsSortStable_perm _ l
  · refine pairwise_jsSortStable _ _ (fun a b c hab hbc => le_trans hab hbc) ?_ ?_
    · intro a b h
      simp [todoCmp] at h
      omega
    · intro a b h
      simp [todoCmp] at h
      omega
  · refine pairwise_jsSortStable _ _ (fun a b c hab hbc => le_trans hbc hab) ?_ ?_
    · intro a b h
      simp [todoCmp] at h
      omega
    · intro a b h
      simp [todoCmp] at h
      omega
  · refine pairwise_jsSortStable _ _ (fun a b c hab hbc => le_trans hab hbc) ?_ ?_
    · intro a b h
      simp [todoCmp] at h
      rcases strCompare_cases a.dateCreated b.dateCreated with
        ⟨hc, hlt⟩ | ⟨hc, -⟩ | ⟨hc, -, -⟩
      · exact le_of_lt hlt
      · rw [hc] at h; omega
      · rw [hc] at h; omega
    · intro a b h
      simp [todoCmp] at h
      rcases strCompare_cases a.dateCreated b.dateCreated with
        ⟨hc, hlt⟩ | ⟨hc, heq⟩ | ⟨hc, hnlt, -⟩
      · rw [hc] at h; omega
      · exact le_of_eq heq.symm
      · exact le_of_not_lt hnlt
  · refine pairwise_jsSortStable _ _ (fun a b c hab hbc => le_trans hbc hab) ?_ ?_
    · intro a b h
      simp [todoCmp] at h
      rcases strCompare_cases a.dateCreated b.dateCreated with
        ⟨hc, hlt⟩ | ⟨hc, heq⟩ | ⟨hc, hnlt, -⟩
      · rw [hc] at h; omega
      · rw [hc] at h; omega
      · exact le_of_not_lt hnlt
    · intro a b h
      simp [todoCmp] at h
      rcases strCompare_cases a.dateCreated b.dateCreated with
        ⟨hc, hlt⟩ | ⟨hc, heq⟩ | ⟨hc, hnlt, -⟩
      · exact le_of_lt hlt
      · exact le_of_eq heq
      · rw [hc] at h; omega
  · intro a b c
    cases c <;> simp [todoCmp]
  · intro sb ord t0 l
    exact filter_jsSortStable _ t0 (todoCmp_stable_hyp sb ord t0) l

/-- The parts of the capturing split concatenate to the original text. -/
theorem splitFuel_flatten :
    ∀ (fuel : Nat) (text : List Char), text.length ≤ fuel →
      ∀ (b : Bool) (acc : List Char),
        (splitFuel fuel b acc text).flatten = acc.reverse ++ text := by
  intro fuel
  induction fuel with
  | zero =>
    intro text h b acc
    have : text = [] := List.length_eq_zero.mp (Nat.le_zero.mp h)
    subst this
    simp [splitFuel]
  | succ n ih =>
    intro text h b acc
    cases text with
    | nil => simp [splitFuel]
    | cons c cs =>
      have hcs : cs.length ≤ n := by simpa using Nat.le_of_succ_le_succ h
      have hd1 : (cs.dropWhile isWS).length ≤ n :=
        le_trans (List.dropWhile_sublist isWS).length_le hcs
      have hd2 : (cs.dropWhile isWordChar).length ≤ n :=
        le_trans (List.dropWhile_sublist isWordChar).length_le hcs
      by_cases h1 : isWS c
      · rw [show splitFuel (n+1) b acc (c :: cs)
            = acc.reverse :: (c :: cs.takeWhile isWS)
              :: splitFuel n false [] (cs.dropWhile isWS) by
            simp only [splitFuel, if_pos h1]]
        rw [List.flatten_cons, List.flatten_cons, ih _ hd1]
        simp [List.takeWhile_append_dropWhile]
      · by_cases h2 : c = '#' ∧ cs.takeWhile isWordChar ≠ []
        · rw [show splitFuel (n+1) b acc (c :: cs)
              = acc.reverse :: (c :: cs.takeWhile isWordChar)
                :: splitFuel n false [] (cs.dropWhile isWordChar) by
              simp only [splitFuel, if_neg h1, if_pos h2]]
          rw [List.flatten_cons, List.flatten_cons, ih _ hd2]
          simp [List.takeWhile_append_dropWhile]
        · by_cases h3 : b ∧ c = '@' ∧ cs.takeWhile isWordChar ≠ []
          · rw [show splitFuel (n+1) b acc (c :: cs)
                = acc.reverse :: (c :: cs.takeWhile isWordChar)
                  :: splitFuel n false [] (cs.dropWhile isWordChar) by
                simp only [splitFuel, if_neg h1, if_neg h2, if_pos h3]]
            rw [List.flatten_cons, List.flatten_cons, ih _ hd2]
            simp [List.takeWhile_append_dropWhile]
          · rw [show splitFuel (n+1) b acc (c :: cs)
                = splitFuel n false (c :: acc) cs by
                simp only [splitFuel, if_neg h1, if_neg h2, if_neg h3]]
            rw [ih _ hcs]
            simp

/-- Facts extracted from a successful full-part mention match: the first
group is the leading whitespace, the groups concatenate to the part, and the
second group is a recognized mention token. -/
theorem fullMention_eq_some {part sp m : List Char}
    (h : fullMention part = some (sp, m)) :
    sp = part.takeWhile isWS ∧ sp ++ m = part ∧ hasMentionTok m = true := by
  unfold fullMention at h
  cases hdw : part.dropWhile isWS with
  | nil => rw [hdw] at h; cases h
  | cons c body =>
    rw [hdw] at h
    rw [show fullMentionAux (part.takeWhile isWS) (c :: body)
        = if c = '@' ∧ body ≠ [] ∧ body.all isWordChar = true
          then some (part.takeWhile isWS, c :: body) else none from rfl] at h
    by_cases hc : c = '@' ∧ body ≠ [] ∧ body.all isWordChar = true
    · rw [if_pos hc] at h
      obtain ⟨rfl, rfl⟩ : sp = part.takeWhile isWS ∧ m = c :: body := by
        have := Option.some.inj h
        exact ⟨congrArg Prod.fst this.symm, congrArg Prod.snd this.symm⟩
      obtain ⟨rfl, hne, hall⟩ := hc
      refine ⟨rfl, ?_, ?_⟩
      · rw [← hdw, List.takeWhile_append_dropWhile]
      · have htw : body.takeWhile isWordChar = body :=
          List.takeWhile_eq_self_iff.mpr (List.all_eq_true.mp hall)
        unfold hasMentionTok
        simp [mentionOccs, htw, hne]
    · rw [if_neg hc] at h
      cases h

/-- Each part's rendered segments concatenate back to the part. -/
theorem segData_renderPart_flatten (part : List Char) :
    (((renderPart part).map segData)).flatten = part := by
  unfold renderPart
  by_cases h1 : part.head? = some '#'
  · rw [if_pos h1]; simp [segData]
  · rw [if_neg h1]
    by_cases h2 : hasMentionTok part = true
    · rw [if_pos h2]
      cases hf : fullMention part with
      | none => simp [segData]
      | some pr =>
        obtain ⟨sp, m⟩ := pr
        obtain ⟨-, hsm, -⟩ := fullMention_eq_some hf
        simp [segData, hsm]
    · rw [if_neg h2]; simp [segData]

/-- Tag-styled segments come only from parts whose first character is the
hash. -/
theorem renderPart_tag {part : List Char} {s : String}
    (h : Seg.tag s ∈ renderPart part) : s.data.head? = some '#' := by
  unfold renderPart at h
  by_cases h1 : part.head? = some '#'
  · rw [if_pos h1] at h
    have e := List.mem_singleton.mp h
    injection e with e'
    subst e'
    exact h1
  · rw [if_neg h1] at h
    by_cases h2 : hasMentionTok part = true
    · rw [if_pos h2] at h
      cases hf : fullMention part with
      | none => rw [hf] at h; simp at h
      | some pr =>
        obtain ⟨sp, m⟩ := pr
        rw [hf] at h
        simp at h
    · rw [if_neg h2] at h
      simp at h

/-- Mention-styled segments always contain a recognized at-word token (at
their start or after whitespace). -/
theorem renderPart_mention {part : List Char} {s : String}
    (h : Seg.mention s ∈ renderPart part) : hasMentionTok s.data = true := by
  unfold renderPart at h
  by_cases h1 : part.head? = some '#'
  · rw [if_pos h1] at h
    simp at h
  · rw [if_neg h1] at h
    by_cases h2 : hasMentionTok part = true
    · rw [if_pos h2] at h
      cases hf : fullMention part with
      | none =>
        rw [hf] at h
        have e := List.mem_singleton.mp h
        injection e with e'
        subst e'
        exact h2
      | some pr =>
        obtain ⟨sp, m⟩ := pr
        rw [hf] at h
        have hm : s = String.mk m := by
          rcases List.mem_cons.mp h with hx | hx
          · exact Seg.noConfusion hx
          · have e := List.mem_singleton.mp hx
            injection e
        subst hm
        exact (fullMention_eq_some hf).2.2
    · rw [if_neg h2] at h
      simp at h

/-- Plain segments are whitespace (possibly empty) or contain neither a
leading hash nor a recognized at-word token. -/
theorem renderPart_plain {part : List Char} {s : String}
    (h : Seg.plain s ∈ renderPart part) :
    s.data.all isWS = true
    ∨ (s.data.head? ≠ some '#' ∧ hasMentionTok s.data = false) := by
  unfold renderPart at h
  by_cases h1 : part.head? = some '#'
  · rw [if_pos h1] at h
    simp at h
  · rw [if_neg h1] at h
    by_cases h2 : hasMentionTok part = true
    · rw [if_pos h2] at h
      cases hf : fullMention part with
      | none =>
        rw [hf] at h
        simp at h
      | some pr =>
        obtain ⟨sp, m⟩ := pr
        rw [hf] at h
        have hsp : s = String.mk sp := by
          rcases List.mem_cons.mp h with hx | hx
          · injection hx
          · have e := List.mem_singleton.mp hx
            exact Seg.noConfusion e
        subst hsp
        left
        obtain ⟨hspw, -, -⟩ := fullMention_eq_some hf
        rw [List.all_eq_true]
        intro x hx
        rw [show (String.mk sp).data = sp from rfl, hspw] at hx
        exact List.mem_takeWhile_imp hx
    · rw [if_neg h2] at h
      have e := List.mem_singleton.mp h
      injection e with e'
      subst e'
      right
      exact ⟨h1, by simpa using h2⟩

/-- The rendered segments of a part list concatenate to the parts'
concatenation. -/
theorem flatten_map_renderPart (parts : List (List Char)) :
    (((parts.map renderPart).flatten).map segData).flatten = parts.flatten := by
  induction parts with
  | nil => rfl
  | cons p ps ih =>
    simp only [List.map_cons, List.flatten_cons, List.map_append, List.flatten_append,
      segData_renderPart_flatten, ih]

/-- C9 amended: the rendering is a pure segmentation whose concatenation is
the whole input; every tag-styled segment begins with a hash; every
mention-styled segment contains a recognized at-word token (same boundary
rule as extraction) though it may extend beyond the token; plain segments
are whitespace or free of both; the concrete sentence shows tokens being
recognized and highlighted. -/
theorem C9_renderHighlightedText_amended :
    (∀ text : String,
      ((renderHighlightedText text).map segData).flatten = text.data
      ∧ (∀ s : String, Seg.tag s ∈ renderHighlightedText text →
          s.data.head? = some '#')
      ∧ (∀ s : String, Seg.mention s ∈ renderHighlightedText text →
          hasMentionTok s.data = true)
      ∧ (∀ s : String, Seg.plain s ∈ renderHighlightedText text →
          s.data.all isWS = true
          ∨ (s.data.head? ≠ some '#' ∧ hasMentionTok s.data = false)))
    ∧ renderHighlightedText "go #home with @bob now"
      = [Seg.plain "go", Seg.plain " ", Seg.plain "", Seg.tag "#home", Seg.plain "",
         Seg.plain " ", Seg.plain "with", Seg.plain " ", Seg.plain "",
         Seg.mention "@bob", Seg.plain " ", Seg.plain "now"] := by
  constructor
  · intro text
    have hmem : ∀ seg : Seg, seg ∈ renderHighlightedText text →
        ∃ part, seg ∈ renderPart part := by
      intro seg hseg
      rcases List.mem_flatten.mp hseg with ⟨segs, hsegs, hin⟩
      rcases List.mem_map.mp hsegs with ⟨part, -, rfl⟩
      exact ⟨part, hin⟩
    refine ⟨?_, ?_, ?_, ?_⟩
    · rw [renderHighlightedText, flatten_map_renderPart, splitParts,
        splitFuel_flatten _ _ le_rfl]
      rfl
    · intro s hs
      rcases hmem _ hs with ⟨part, hp⟩
      exact renderPart_tag hp
    · intro s hs
      rcases hmem _ hs with ⟨part, hp⟩
      exact renderPart_mention hp
    · intro s hs
      rcases hmem _ hs with ⟨part, hp⟩
      exact renderPart_plain hp
  · decide

/-- C9 counterexample: the tag-styled and mention-styled segments are not
exactly the recognized tokens — a bare hash (not followed by a word
character) is tag-styled, and a mention-styled segment can extend beyond the
at-word token to trailing punctuation. -/
theorem C9_renderHighlightedText_counterexample :
    renderHighlightedText "# @a!" = [Seg.tag "#", Seg.plain " ", Seg.mention "@a!"]
    ∧ isHashWordToken "#" = false
    ∧ isAtWordToken "@a!" = false
    ∧ isAtWordToken "@a" = true := by
  refine ⟨by decide, by decide, by decide, by decide⟩

/-- Witness instantiating the amended C9 on a concrete sentence. -/
theorem C9_renderHighlightedText_witness :
    ("#home" : String).data.head? = some '#'
    ∧ hasMentionTok ("@bob" : String).data = true
    ∧ (("" : String).data.all isWS = true
        ∨ (("" : String).data.head? ≠ some '#'
            ∧ hasMentionTok ("" : String).data = false)) := by
  have h := C9_renderHighlightedText_amended.1 "go #home with @bob now"
  exact ⟨h.2.1 "#home" (by decide), h.2.2.1 "@bob" (by decide),
    h.2.2.2 "" (by decide)⟩
